import Mathlib

/-!
Verification of the entity registry, schema builder / version manager and
Prisma-style query engine of the Angular-IndexedDB-ORM repository.

The development shallowly embeds the three core source modules:

* src/core/registry.ts   - entity/column metadata registry
* src/core/schema.ts     - schema builder and version manager
* src/clients/prisma.service.ts - predicate compiler, key resolution,
  ordering comparator and the CRUD layer

JavaScript values appearing in where-conditions and records are embedded as
the inductive type JSVal below.  Machine-level caveats of the embedding are
noted next to each definition.
-/

/-! ### String ordering utilities

JavaScript compares strings lexicographically by UTF-16 code units
(String.prototype.localeCompare is modelled by the same code-unit order;
the repository only ever sorts ASCII identifiers, for which the two
coincide).  Lean's built-in String order does not reduce inside the kernel,
so the order is defined on character lists. -/

def charListLt : List Char → List Char → Bool
  | [], [] => false
  | [], _ :: _ => true
  | _ :: _, [] => false
  | c :: cs, d :: ds => decide (c < d) || (decide (c = d) && charListLt cs ds)

def charListLe : List Char → List Char → Bool
  | [], _ => true
  | _ :: _, [] => false
  | c :: cs, d :: ds => decide (c < d) || (decide (c = d) && charListLe cs ds)

def strLtB (a b : String) : Bool := charListLt a.toList b.toList

def strLeB (a b : String) : Bool := charListLe a.toList b.toList

/-- Substring containment on character lists (String.prototype.includes). -/
def charPrefixOf : List Char → List Char → Bool
  | [], _ => true
  | _ :: _, [] => false
  | c :: cs, d :: ds => decide (c = d) && charPrefixOf cs ds

def charInfixOf (needle : List Char) : List Char → Bool
  | [] => charPrefixOf needle []
  | d :: ds => charPrefixOf needle (d :: ds) || charInfixOf needle ds

def strIncludesB (s needle : String) : Bool := charInfixOf needle.toList s.toList

def strStartsWithB (s pre : String) : Bool := charPrefixOf pre.toList s.toList

def strEndsWithB (s suf : String) : Bool :=
  charPrefixOf suf.toList.reverse s.toList.reverse

/-! ### Entity registry (src/core/registry.ts)

ColumnOptions models the TypeScript interface with optional boolean fields:
`none` is an absent field, `some b` an explicitly supplied boolean.  A field
is truthy in the JavaScript sense exactly when it is `some true`. -/

structure ColumnOptions where
  primary : Option Bool := none
  autoIncrement : Option Bool := none
deriving DecidableEq, Repr

structure ColumnMeta where
  propertyKey : String
  options : ColumnOptions
deriving DecidableEq, Repr

structure EntityMeta where
  tableName : String
  columns : List ColumnMeta
deriving DecidableEq, Repr

/-- Truthiness of an optional boolean option field. -/
def optTrue : Option Bool → Bool
  | some true => true
  | _ => false

/-- Object spread merge of two option records: fields present in the second
argument win, absent fields fall back to the first. -/
def mergeOptions (old new : ColumnOptions) : ColumnOptions :=
  { primary := new.primary <|> old.primary
    autoIncrement := new.autoIncrement <|> old.autoIncrement }

def isPrimaryCol (c : ColumnMeta) : Bool := optTrue c.options.primary

/-- addColumn from registry.ts, restricted to one entity descriptor (the
decorator target resolution and seal check are host-environment concerns
not relevant to the claims).  The source updates the column at the first
matching index; since property keys within a descriptor are unique, the
map-based in-place replacement used here is equivalent. -/
def addColumn (meta : EntityMeta) (propertyKey : String) (options : ColumnOptions) :
    Except String EntityMeta :=
  let existingPrimary := meta.columns.find? fun c =>
    isPrimaryCol c && c.propertyKey != propertyKey
  if optTrue options.autoIncrement && !optTrue options.primary then
    .error ("autoIncrement requires primary: true (table: " ++ meta.tableName ++
      ", column: " ++ propertyKey ++ ")")
  else if optTrue options.primary && existingPrimary.isSome then
    .error ("Multiple primary columns not supported (table: " ++ meta.tableName ++
      ", column: " ++ propertyKey ++ ")")
  else if meta.columns.any (fun c => c.propertyKey == propertyKey) then
    .ok { meta with columns := meta.columns.map fun c =>
      if c.propertyKey == propertyKey then
        { propertyKey := propertyKey, options := mergeOptions c.options options }
      else c }
  else
    .ok { meta with columns :=
      meta.columns ++ [{ propertyKey := propertyKey, options := mergeOptions {} options }] }

/-- Folding a list of column registrations through addColumn, as the
property decorators do one by one. -/
def applyColumns (meta : EntityMeta) (regs : List (String × ColumnOptions)) :
    Except String EntityMeta :=
  regs.foldlM (fun acc r => addColumn acc r.1 r.2) meta

/-- JavaScript Map.set on an association list of columns: an existing key
keeps its original position but receives the new value, a fresh key is
appended. -/
def mapSet (acc : List ColumnMeta) (c : ColumnMeta) : List ColumnMeta :=
  if acc.any (fun x => x.propertyKey == c.propertyKey) then
    acc.map fun x => if x.propertyKey == c.propertyKey then c else x
  else acc ++ [c]

/-- Column overlay of an ancestor chain (root first, leaf last), as built by
resolveEntity's columnsMap loop. -/
def mergeColumns (chain : List (List ColumnMeta)) : List ColumnMeta :=
  chain.foldl (fun acc cols => cols.foldl mapSet acc) []

/-- resolveEntity from registry.ts.  The prototype-chain walk is a
host-language reflection mechanism; the chain of per-ancestor column lists
(root to leaf) is taken as an explicit argument. -/
def resolveEntity (tableName : String) (chain : List (List ColumnMeta)) :
    Except String (List ColumnMeta) :=
  let cols := mergeColumns chain
  let primaries := cols.filter isPrimaryCol
  let distinctPrimaryKeys := (primaries.map (·.propertyKey)).dedup
  if distinctPrimaryKeys.length > 1 then
    .error ("Multiple primary columns across inheritance for table \"" ++ tableName ++ "\"")
  else .ok cols

/-! ### Schema builder and version manager (src/core/schema.ts) -/

/-- buildTableSchema from schema.ts, applied to an already-resolved column
list.  The first primary column (if any) comes first, prefixed with the
auto-increment marker when requested; the remaining columns follow sorted
lexicographically; the parts are comma-space joined.  An empty primary part
is dropped, mirroring the JavaScript truthiness check. -/
def buildTableSchema (resolvedColumns : List ColumnMeta) : String :=
  let primary := resolvedColumns.find? isPrimaryCol
  let primaryPart := match primary with
    | some p => if optTrue p.options.autoIncrement then "++" ++ p.propertyKey else p.propertyKey
    | none => ""
  let otherCols := ((resolvedColumns.filter fun c => !isPrimaryCol c).map
    (·.propertyKey)).insertionSort fun a b => strLeB a b = true
  let parts := (if primaryPart ≠ "" then [primaryPart] else []) ++ otherCols
  String.intercalate ", " parts

/-- buildSchema from schema.ts over an explicit entity list (the registry's
byTable values).  Entities without parents resolve to the overlay of their
own column list.  The result is the association list that the sorted
JavaScript object insertion produces. -/
def buildSchema (entities : List EntityMeta) : List (String × String) :=
  let sorted := entities.insertionSort fun a b => strLeB a.tableName b.tableName = true
  sorted.map fun m => (m.tableName, buildTableSchema (mergeColumns [m.columns]))

/-- JSON string quoting; escape sequences are elided because schema strings
only contain identifier characters and the claims never depend on escaping. -/
def jsonQuote (s : String) : String := "\"" ++ s ++ "\""

/-- computeSignature from schema.ts: entries sorted by table name, then
serialized exactly as JSON.stringify serializes an array of string pairs. -/
def computeSignature (schema : List (String × String)) : String :=
  let entries := schema.insertionSort fun a b => strLeB a.1 b.1 = true
  "[" ++ String.intercalate ","
    (entries.map fun e => "[" ++ jsonQuote e.1 ++ "," ++ jsonQuote e.2 ++ "]") ++ "]"

structure VersionRecord where
  version : Int
  signature : String
deriving DecidableEq, Repr

/-- The persisted localStorage contents, keyed by versionKey, holding the
already-parsed VersionRecord.  A raw string that JSON.parse rejects behaves
exactly like an absent key in loadStoredVersion, so corrupt entries are
modelled as absence. -/
abbrev KVStore := List (String × VersionRecord)

def versionKey (dbName : String) : String := "__dexie_dynamic_version__::" ++ dbName

def kvGet (s : KVStore) (k : String) : Option VersionRecord :=
  (s.find? fun e => e.1 == k).map (·.2)

def kvSet (s : KVStore) (k : String) (v : VersionRecord) : KVStore :=
  if s.any (fun e => e.1 == k) then
    s.map fun e => if e.1 == k then (k, v) else e
  else s ++ [(k, v)]

/-- loadStoredVersion from schema.ts.  The flag win records whether a
window (and with it localStorage) exists; without it the defaults are
returned unconditionally. -/
def loadStoredVersion (win : Bool) (store : KVStore) (dbName : String) : VersionRecord :=
  if !win then { version := 1, signature := "" }
  else match kvGet store (versionKey dbName) with
    | none => { version := 1, signature := "" }
    | some r => r

/-- storeVersion from schema.ts: returns the version argument and, when a
window exists, also writes the record; the updated store is returned
explicitly in place of the localStorage side effect. -/
def storeVersion (win : Bool) (store : KVStore) (dbName : String)
    (version : Int) (signature : String) : Int × KVStore :=
  if !win then (version, store)
  else (version, kvSet store (versionKey dbName) { version := version, signature := signature })

/-- getVersion from schema.ts, with the persistent store threaded
explicitly. -/
def getVersion (win : Bool) (store : KVStore) (dbName : String)
    (schema : List (String × String)) : Int × KVStore :=
  let signature := computeSignature schema
  let r := loadStoredVersion win store dbName
  if signature = r.signature then (r.version, store)
  else storeVersion win store dbName (r.version + 1) signature

/-! ### Order lemmas for the code-unit string order -/

theorem charListLe_total : ∀ as bs : List Char, charListLe as bs = true ∨ charListLe bs as = true
  | [], bs => by left; cases bs <;> rfl
  | _ :: _, [] => by right; rfl
  | c :: cs, d :: ds => by
    rcases lt_trichotomy c d with h | h | h
    · left; simp [charListLe, h]
    · subst h
      rcases charListLe_total cs ds with ih | ih
      · left; simp [charListLe, ih]
      · right; simp [charListLe, ih]
    · right; simp [charListLe, h]

theorem charListLe_trans : ∀ as bs cs : List Char, charListLe as bs = true →
    charListLe bs cs = true → charListLe as cs = true
  | [], _, cs => by intro _ _; cases cs <;> rfl
  | _ :: _, [], _ => by intro h; exact absurd h (by simp [charListLe])
  | _ :: _, _ :: _, [] => by intro _ h; exact absurd h (by simp [charListLe])
  | a :: as, b :: bs, c :: cs => by
    intro h1 h2
    simp only [charListLe, Bool.or_eq_true, Bool.and_eq_true, decide_eq_true_eq] at h1 h2 ⊢
    rcases h1 with h1 | ⟨rfl, h1⟩
    · rcases h2 with h2 | ⟨rfl, h2⟩
      · exact Or.inl (h1.trans h2)
      · exact Or.inl h1
    · rcases h2 with h2 | ⟨rfl, h2⟩
      · exact Or.inl h2
      · exact Or.inr ⟨rfl, charListLe_trans _ _ _ h1 h2⟩

theorem charListLe_antisymm : ∀ as bs : List Char, charListLe as bs = true →
    charListLe bs as = true → as = bs
  | [], [] => by intro _ _; rfl
  | [], _ :: _ => by intro _ h; exact absurd h (by simp [charListLe])
  | _ :: _, [] => by intro h _; exact absurd h (by simp [charListLe])
  | a :: as, b :: bs => by
    intro h1 h2
    simp only [charListLe, Bool.or_eq_true, Bool.and_eq_true, decide_eq_true_eq] at h1 h2
    rcases h1 with h1 | ⟨rfl, h1⟩
    · rcases h2 with h2 | ⟨rfl, h2⟩
      · exact absurd (h1.trans h2) (lt_irrefl _)
      · exact absurd h1 (lt_irrefl _)
    · rcases h2 with h2 | ⟨h2e, h2⟩
      · exact absurd h2 (lt_irrefl _)
      · exact by rw [charListLe_antisymm as bs h1 h2]

theorem strLeB_total (a b : String) : strLeB a b = true ∨ strLeB b a = true :=
  charListLe_total _ _

theorem strLeB_trans {a b c : String} (h1 : strLeB a b = true) (h2 : strLeB b c = true) :
    strLeB a c = true := charListLe_trans _ _ _ h1 h2

theorem strLeB_antisymm {a b : String} (h1 : strLeB a b = true) (h2 : strLeB b a = true) :
    a = b :=
  String.ext (charListLe_antisymm _ _ h1 h2)

/-- Sorting by a string key is a function of the underlying multiset as soon
as the keys are distinct: the two sorted lists of a permutation pair agree. -/
theorem insertionSort_key_eq {β : Type} (key : β → String) (l1 l2 : List β)
    (hp : l1.Perm l2) (hnd : (l1.map key).Nodup) :
    l1.insertionSort (fun a b => strLeB (key a) (key b) = true) =
    l2.insertionSort (fun a b => strLeB (key a) (key b) = true) := by
  set r := fun a b : β => strLeB (key a) (key b) = true with hr
  haveI : IsTotal β r := ⟨fun a b => strLeB_total (key a) (key b)⟩
  haveI : IsTrans β r := ⟨fun _ _ _ h1 h2 => strLeB_trans h1 h2⟩
  set r' := fun a b : β => r a b ∧ key a ≠ key b with hr'
  haveI : IsAntisymm β r' := ⟨fun a b h1 h2 => absurd (strLeB_antisymm h1.1 h2.1) h1.2⟩
  have hs1 := List.sorted_insertionSort r l1
  have hs2 := List.sorted_insertionSort r l2
  have hp1 : (l1.insertionSort r).Perm l1 := List.perm_insertionSort r l1
  have hp2 : (l2.insertionSort r).Perm l2 := List.perm_insertionSort r l2
  have hnd1 : ((l1.insertionSort r).map key).Nodup := ((hp1.map key).nodup_iff).mpr hnd
  have hnd2 : ((l2.insertionSort r).map key).Nodup :=
    ((hp2.map key).nodup_iff).mpr (((hp.map key).nodup_iff).mp hnd)
  have hsort1 : (l1.insertionSort r).Sorted r' := hs1.and (List.pairwise_map.mp hnd1)
  have hsort2 : (l2.insertionSort r).Sorted r' := hs2.and (List.pairwise_map.mp hnd2)
  exact List.eq_of_perm_of_sorted ((hp1.trans hp).trans hp2.symm) hsort1 hsort2

theorem find?_eq_head?_filter {α : Type} (p : α → Bool) : ∀ l : List α,
    l.find? p = (l.filter p).head?
  | [] => rfl
  | a :: l => by
    by_cases h : p a
    · rw [List.find?_cons_of_pos _ h, List.filter_cons_of_pos h, List.head?_cons]
    · rw [List.find?_cons_of_neg _ (by simp [h]), List.filter_cons_of_neg (by simp [h]),
        find?_eq_head?_filter p l]

/-- At most one column of the list is marked primary, up to property key. -/
def atMostOnePrimary (cols : List ColumnMeta) : Prop :=
  ∀ c1 ∈ cols, ∀ c2 ∈ cols, isPrimaryCol c1 = true → isPrimaryCol c2 = true →
    c1.propertyKey = c2.propertyKey

theorem filter_primary_length_le_one (cols : List ColumnMeta)
    (hnd : (cols.map (·.propertyKey)).Nodup) (hone : atMostOnePrimary cols) :
    (cols.filter isPrimaryCol).length ≤ 1 := by
  match h : cols.filter isPrimaryCol with
  | [] => simp
  | [_] => simp
  | a :: b :: t =>
    exfalso
    have ha : a ∈ cols.filter isPrimaryCol := by rw [h]; exact List.mem_cons_self a _
    have hb : b ∈ cols.filter isPrimaryCol := by
      rw [h]; exact List.mem_cons_of_mem a (List.mem_cons_self b _)
    have hsub : ((cols.filter isPrimaryCol).map (·.propertyKey)).Sublist
        (cols.map (·.propertyKey)) :=
      List.Sublist.map _ (List.filter_sublist cols)
    have hfnd : ((cols.filter isPrimaryCol).map (·.propertyKey)).Nodup := hnd.sublist hsub
    rw [h] at hfnd
    have hne : a.propertyKey ≠ b.propertyKey := by
      simp only [List.map_cons, List.nodup_cons, List.mem_cons, not_or] at hfnd
      exact hfnd.1.1
    rcases List.mem_filter.mp ha with ⟨ha1, ha2⟩
    rcases List.mem_filter.mp hb with ⟨hb1, hb2⟩
    exact hne (hone a ha1 b hb1 ha2 hb2)

theorem find?_primary_congr (cols1 cols2 : List ColumnMeta) (hp : cols1.Perm cols2)
    (hnd : (cols1.map (·.propertyKey)).Nodup) (hone : atMostOnePrimary cols1) :
    cols1.find? isPrimaryCol = cols2.find? isPrimaryCol := by
  rw [find?_eq_head?_filter, find?_eq_head?_filter]
  have hpf : (cols1.filter isPrimaryCol).Perm (cols2.filter isPrimaryCol) :=
    hp.filter isPrimaryCol
  have hlen := filter_primary_length_le_one cols1 hnd hone
  match h : cols1.filter isPrimaryCol with
  | [] =>
    rw [h] at hpf
    rw [List.Perm.nil_eq hpf]
  | [a] =>
    rw [h] at hpf
    rw [(List.singleton_perm.mp hpf).symm]
  | a :: b :: t => rw [h] at hlen; simp at hlen

theorem kv_find_replace (s : KVStore) (k : String) (v : VersionRecord)
    (hs : s.any (fun e => e.1 == k) = true) :
    (s.map fun e => if e.1 == k then (k, v) else e).find? (fun e => e.1 == k) = some (k, v) := by
  induction s with
  | nil => simp at hs
  | cons e rest ih =>
    by_cases h : (e.1 == k) = true
    · simp only [List.map_cons, if_pos h]
      simp [List.find?_cons]
    · have hb : (e.1 == k) = false := by simp only [Bool.not_eq_true] at h; exact h
      simp only [List.map_cons]
      rw [if_neg h]
      simp only [List.find?_cons, hb]
      apply ih
      simpa [hb] using hs

theorem kv_find_append (s : KVStore) (k : String) (v : VersionRecord)
    (hs : s.any (fun e => e.1 == k) = false) :
    (s ++ [(k, v)]).find? (fun e => e.1 == k) = some (k, v) := by
  induction s with
  | nil => simp [List.find?_cons]
  | cons e rest ih =>
    simp only [List.any_cons, Bool.or_eq_false_iff] at hs
    rw [List.cons_append]
    simp only [List.find?_cons, hs.1]
    exact ih hs.2

theorem kvGet_kvSet_self (s : KVStore) (k : String) (v : VersionRecord) :
    kvGet (kvSet s k v) k = some v := by
  by_cases hs : s.any (fun e => e.1 == k) = true
  · rw [kvSet, if_pos hs, kvGet, kv_find_replace s k v hs, Option.map_some']
  · have hb : s.any (fun e => e.1 == k) = false := by
      simp only [Bool.not_eq_true] at hs; exact hs
    rw [kvSet, if_neg hs, kvGet, kv_find_append s k v hb, Option.map_some']

theorem computeSignature_ne_empty (schema : List (String × String)) :
    computeSignature schema ≠ "" := by
  intro h
  have hlen := congrArg String.length h
  simp only [computeSignature] at hlen
  rw [String.length_append, String.length_append] at hlen
  have h1 : ("[" : String).length = 1 := rfl
  have h2 : ("]" : String).length = 1 := rfl
  have h3 : ("" : String).length = 0 := rfl
  omega

/-- C1 (amended): with no window (and so no persistent store) available,
getVersion performs no store access and returns version 2 for every
database name and schema: the stored record defaults to version 1 with the
empty signature, the computed signature is never empty, and the headless
storeVersion branch returns the incremented version without writing. -/
theorem getVersion_headless (store : KVStore) (db : String) (sch : List (String × String)) :
    getVersion false store db sch = (2, store) := by
  have hne := computeSignature_ne_empty sch
  simp [getVersion, loadStoredVersion, storeVersion, hne]

/-- C4: with the persistent store available, a second getVersion call on
the unchanged schema returns the same version as the first; when the
computed signature differs from the stored one, the result is exactly the
stored version plus one and the record is persisted with the new
signature; when the signatures agree, the store is left untouched. -/
theorem getVersion_monotonicity (store : KVStore) (db : String) (sch : List (String × String)) :
    ((getVersion true ((getVersion true store db sch).2) db sch).1 =
      (getVersion true store db sch).1) ∧
    (computeSignature sch ≠ (loadStoredVersion true store db).signature →
      getVersion true store db sch =
        ((loadStoredVersion true store db).version + 1,
         kvSet store (versionKey db)
           ⟨(loadStoredVersion true store db).version + 1, computeSignature sch⟩)) ∧
    (computeSignature sch = (loadStoredVersion true store db).signature →
      getVersion true store db sch = ((loadStoredVersion true store db).version, store)) := by
  refine ⟨?_, ?_, ?_⟩
  · by_cases hsig : computeSignature sch = (loadStoredVersion true store db).signature
    · simp [getVersion, hsig]
    · have h1 : getVersion true store db sch =
          ((loadStoredVersion true store db).version + 1,
           kvSet store (versionKey db)
             ⟨(loadStoredVersion true store db).version + 1, computeSignature sch⟩) := by
        simp [getVersion, storeVersion, hsig]
      rw [h1]
      have h2 : loadStoredVersion true
          (kvSet store (versionKey db)
            ⟨(loadStoredVersion true store db).version + 1, computeSignature sch⟩) db =
          ⟨(loadStoredVersion true store db).version + 1, computeSignature sch⟩ := by
        simp [loadStoredVersion, kvGet_kvSet_self]
      simp [getVersion, h2]
  · intro hsig
    simp [getVersion, storeVersion, hsig]
  · intro hsig
    simp [getVersion, hsig]

theorem insertionSort_str_eq (l1 l2 : List String) (hp : l1.Perm l2) (hnd : l1.Nodup) :
    l1.insertionSort (fun a b => strLeB a b = true) =
    l2.insertionSort (fun a b => strLeB a b = true) :=
  insertionSort_key_eq (fun s => s) l1 l2 hp (by simpa using hnd)

theorem buildTableSchema_perm (cols1 cols2 : List ColumnMeta) (hcp : cols1.Perm cols2)
    (hcnd : (cols1.map (·.propertyKey)).Nodup) (hone : atMostOnePrimary cols1) :
    buildTableSchema cols1 = buildTableSchema cols2 := by
  have hfind := find?_primary_congr cols1 cols2 hcp hcnd hone
  have hother : ((cols1.filter fun c => !isPrimaryCol c).map (·.propertyKey)).insertionSort
        (fun a b => strLeB a b = true) =
      ((cols2.filter fun c => !isPrimaryCol c).map (·.propertyKey)).insertionSort
        (fun a b => strLeB a b = true) := by
    apply insertionSort_str_eq
    · exact (hcp.filter _).map _
    · exact hcnd.sublist (List.Sublist.map _ (List.filter_sublist cols1))
  simp only [buildTableSchema, hfind, hother]

theorem buildSchema_perm (ents1 ents2 : List EntityMeta) (hep : ents1.Perm ents2)
    (hend : (ents1.map (·.tableName)).Nodup) :
    buildSchema ents1 = buildSchema ents2 := by
  have hsort : ents1.insertionSort (fun a b => strLeB a.tableName b.tableName = true) =
      ents2.insertionSort (fun a b => strLeB a.tableName b.tableName = true) :=
    insertionSort_key_eq (·.tableName) ents1 ents2 hep hend
  simp only [buildSchema, hsort]

theorem addColumn_fails_on_second_primary (meta : EntityMeta) (key : String)
    (options : ColumnOptions)
    (hp : optTrue options.primary = true)
    (hex : ∃ c ∈ meta.columns, isPrimaryCol c = true ∧ c.propertyKey ≠ key) :
    ∃ e, addColumn meta key options = .error e := by
  have hsome : (meta.columns.find? fun c =>
      isPrimaryCol c && c.propertyKey != key).isSome = true := by
    rw [List.find?_isSome]
    obtain ⟨c, hc, hcp, hck⟩ := hex
    exact ⟨c, hc, by simp [hcp, hck]⟩
  by_cases hg1 : (optTrue options.autoIncrement && !optTrue options.primary) = true
  · have h : addColumn meta key options = .error ("autoIncrement requires primary: true (table: "
        ++ meta.tableName ++ ", column: " ++ key ++ ")") := by
      rw [addColumn, if_pos hg1]
    exact ⟨_, h⟩
  · have h : addColumn meta key options = .error ("Multiple primary columns not supported (table: "
        ++ meta.tableName ++ ", column: " ++ key ++ ")") := by
      rw [addColumn, if_neg hg1, if_pos (by simp [hp, hsome])]
    exact ⟨_, h⟩

theorem addColumn_preserves_single_primary (meta : EntityMeta) (key : String)
    (options : ColumnOptions) (m' : EntityMeta)
    (hok : addColumn meta key options = .ok m')
    (hone : atMostOnePrimary meta.columns) :
    atMostOnePrimary m'.columns := by
  rw [addColumn] at hok
  split_ifs at hok with hg1 hg2 hg3
  · -- replace branch
    injection hok with hok
    subst hok
    show atMostOnePrimary (meta.columns.map _)
    set f := fun c : ColumnMeta => if c.propertyKey == key then
        ({ propertyKey := key, options := mergeOptions c.options options } : ColumnMeta)
      else c with hf
    have hkeyeq : optTrue options.primary = true →
        ∀ c ∈ meta.columns, isPrimaryCol c = true → c.propertyKey = key := by
      intro hpo c hc hcp
      have hnone : (meta.columns.find? fun c => isPrimaryCol c && c.propertyKey != key)
          = none := by
        by_cases hs : (meta.columns.find? fun c =>
            isPrimaryCol c && c.propertyKey != key).isSome = true
        · exact absurd (by simp [hpo, hs]) hg2
        · exact Option.not_isSome_iff_eq_none.mp hs
      have := List.find?_eq_none.mp hnone c hc
      by_contra hck
      exact this (by simp [hcp, hck])
    have hfc : ∀ c ∈ meta.columns, isPrimaryCol (f c) = true →
        (isPrimaryCol c = true ∧ (f c).propertyKey = c.propertyKey) ∨
        ((f c).propertyKey = key ∧
          ∀ d ∈ meta.columns, isPrimaryCol d = true → d.propertyKey = key) := by
      intro c hc hfp
      by_cases hk : (c.propertyKey == key) = true
      · have hkey : c.propertyKey = key := by simpa using hk
        rw [hf] at hfp
        simp only [if_pos hk] at hfp
        cases hpo : options.primary with
        | some b =>
          cases b with
          | true =>
            refine Or.inr ⟨?_, hkeyeq (by simp [optTrue, hpo])⟩
            rw [hf]
            simp only [if_pos hk]
          | false =>
            exfalso
            simp only [isPrimaryCol, mergeOptions, hpo] at hfp
            simp [optTrue] at hfp
        | none =>
          have : isPrimaryCol c = true := by
            simpa [isPrimaryCol, mergeOptions, hpo] using hfp
          exact Or.inl ⟨this, by simp [hf, hk, hkey]⟩
      · rw [hf] at hfp ⊢
        simp only [if_neg hk] at hfp ⊢
        exact Or.inl ⟨hfp, trivial⟩
    intro c1' hc1' c2' hc2' hp1 hp2
    obtain ⟨c1, hc1, rfl⟩ := List.mem_map.mp hc1'
    obtain ⟨c2, hc2, rfl⟩ := List.mem_map.mp hc2'
    rcases hfc c1 hc1 hp1 with ⟨hq1, he1⟩ | ⟨he1, hall⟩
    · rcases hfc c2 hc2 hp2 with ⟨hq2, he2⟩ | ⟨he2, hall⟩
      · rw [he1, he2]; exact hone c1 hc1 c2 hc2 hq1 hq2
      · rw [he1, he2]; exact hall c1 hc1 hq1
    · rcases hfc c2 hc2 hp2 with ⟨hq2, he2⟩ | ⟨he2, hall2⟩
      · rw [he1, he2]; exact (hall c2 hc2 hq2).symm
      · rw [he1, he2]
  · -- append branch
    injection hok with hok
    subst hok
    show atMostOnePrimary (meta.columns ++ [_])
    set newcol : ColumnMeta :=
      { propertyKey := key, options := mergeOptions {} options } with hnew
    have hnewp : isPrimaryCol newcol = optTrue options.primary := by
      simp [hnew, isPrimaryCol, mergeOptions]
    have hkeyeq : optTrue options.primary = true →
        ∀ c ∈ meta.columns, isPrimaryCol c = true → c.propertyKey = key := by
      intro hpo c hc hcp
      have hnone : (meta.columns.find? fun c => isPrimaryCol c && c.propertyKey != key)
          = none := by
        by_cases hs : (meta.columns.find? fun c =>
            isPrimaryCol c && c.propertyKey != key).isSome = true
        · exact absurd (by simp [hpo, hs]) hg2
        · exact Option.not_isSome_iff_eq_none.mp hs
      have := List.find?_eq_none.mp hnone c hc
      by_contra hck
      exact this (by simp [hcp, hck])
    intro c1' hc1' c2' hc2' hp1 hp2
    rcases List.mem_append.mp hc1' with h1 | h1 <;>
      rcases List.mem_append.mp hc2' with h2 | h2
    · exact hone c1' h1 c2' h2 hp1 hp2
    · have h2e : c2' = newcol := by simpa using h2
      rw [h2e]
      rw [h2e, hnewp] at hp2
      exact hkeyeq hp2 c1' h1 hp1
    · have h1e : c1' = newcol := by simpa using h1
      rw [h1e]
      rw [h1e, hnewp] at hp1
      exact (hkeyeq hp1 c2' h2 hp2).symm
    · have h1e : c1' = newcol := by simpa using h1
      have h2e : c2' = newcol := by simpa using h2
      rw [h1e, h2e]

theorem resolveEntity_single_primary (tname : String) (chain : List (List ColumnMeta))
    (res : List ColumnMeta) (hres : resolveEntity tname chain = .ok res) :
    ((res.filter isPrimaryCol).map (·.propertyKey)).dedup.length ≤ 1 := by
  rw [resolveEntity] at hres
  split_ifs at hres with hg
  injection hres with hres
  subst hres
  omega

/-! ### JavaScript values (for prisma.service.ts)

JSVal embeds the JavaScript values that can appear in records, field
filters and where-conditions.  Arrays and objects carry their own spine
types so that all functions stay structurally computable.  Dates are a
tagged epoch value: note that a Date instance is an object in the
typeof sense (isObject) but has no own enumerable properties (entriesOf).
Reference equality of two distinct structurally-built objects, arrays or
dates is modelled as false in jsStrictEq; the aliasing case where both
sides are literally the same reference is not representable and is never
exercised by the claims. -/

mutual
inductive JSVal : Type where
  | vUndefined : JSVal
  | vNull : JSVal
  | vBool : Bool → JSVal
  | vNum : Int → JSVal
  | vStr : String → JSVal
  | vDate : Int → JSVal
  | vArr : JSItems → JSVal
  | vObj : JSFields → JSVal
inductive JSItems : Type where
  | nil : JSItems
  | cons : JSVal → JSItems → JSItems
inductive JSFields : Type where
  | nil : JSFields
  | cons : String → JSVal → JSFields → JSFields
end

mutual
def JSVal.size : JSVal → Nat
  | .vArr xs => 1 + xs.size
  | .vObj fs => 1 + fs.size
  | _ => 1
def JSItems.size : JSItems → Nat
  | .nil => 1
  | .cons v tl => 1 + v.size + tl.size
def JSFields.size : JSFields → Nat
  | .nil => 1
  | .cons _ v tl => 1 + v.size + tl.size
end

def JSItems.toList : JSItems → List JSVal
  | .nil => []
  | .cons v tl => v :: tl.toList

def JSFields.toList : JSFields → List (String × JSVal)
  | .nil => []
  | .cons k v tl => (k, v) :: tl.toList

def JSItems.ofList : List JSVal → JSItems
  | [] => .nil
  | v :: tl => .cons v (JSItems.ofList tl)

def JSFields.ofList : List (String × JSVal) → JSFields
  | [] => .nil
  | e :: tl => .cons e.1 e.2 (JSFields.ofList tl)

/-- Shorthand constructor for object literals. -/
def jobj (l : List (String × JSVal)) : JSVal := .vObj (JSFields.ofList l)

/-- Shorthand constructor for array literals. -/
def jarr (l : List JSVal) : JSVal := .vArr (JSItems.ofList l)

/-- isObject from prisma.service.ts: a non-null, non-array object in the
typeof sense, which includes Date instances. -/
def isObject : JSVal → Bool
  | .vObj _ => true
  | .vDate _ => true
  | _ => false

def isArray : JSVal → Bool
  | .vArr _ => true
  | _ => false

def isUndefined : JSVal → Bool
  | .vUndefined => true
  | _ => false

/-- JavaScript truthiness. -/
def truthy : JSVal → Bool
  | .vUndefined => false
  | .vNull => false
  | .vBool b => b
  | .vNum n => decide (n ≠ 0)
  | .vStr s => decide (s ≠ "")
  | _ => true

/-- Own enumerable entries (Object.entries): the fields of an object
literal; a Date instance or primitive has none. -/
def entriesOf : JSVal → List (String × JSVal)
  | .vObj fs => fs.toList
  | _ => []

def arrElems : JSVal → List JSVal
  | .vArr xs => xs.toList
  | _ => []

/-- Property access obj[k]: undefined for a missing key or a non-object. -/
def objGet (v : JSVal) (k : String) : JSVal :=
  match (entriesOf v).find? (fun e => e.1 == k) with
  | some e => e.2
  | none => .vUndefined

/-- Strict equality (===) for the primitive values of the model. -/
def jsStrictEq : JSVal → JSVal → Bool
  | .vUndefined, .vUndefined => true
  | .vNull, .vNull => true
  | .vBool a, .vBool b => a == b
  | .vNum a, .vNum b => a == b
  | .vStr a, .vStr b => a == b
  | _, _ => false

/-- valueForComparison from prisma.service.ts: a Date compares by its
epoch number, anything else by itself. -/
def valueForComparison : JSVal → JSVal
  | .vDate t => .vNum t
  | v => v

/-- JavaScript relational comparison < for the value shapes the claims
exercise: number/number, string/string (code-unit lexicographic) and the
boolean-to-number coercions.  Remaining mixed shapes (e.g. numeric string
against number) are not exercised by any claim and yield false, in line
with the specification's contract that incompatible comparisons are false. -/
def jsLtB : JSVal → JSVal → Bool
  | .vNum a, .vNum b => decide (a < b)
  | .vStr a, .vStr b => charListLt a.toList b.toList
  | .vBool a, .vBool b => decide ((cond a 1 0 : Int) < cond b 1 0)
  | .vBool a, .vNum b => decide ((cond a 1 0 : Int) < b)
  | .vNum a, .vBool b => decide (a < (cond b 1 0 : Int))
  | _, _ => false

def jsGtB (a b : JSVal) : Bool := jsLtB b a

def jsLeB : JSVal → JSVal → Bool
  | .vNum a, .vNum b => decide (a ≤ b)
  | .vStr a, .vStr b => charListLe a.toList b.toList
  | .vBool a, .vBool b => decide ((cond a 1 0 : Int) ≤ cond b 1 0)
  | .vBool a, .vNum b => decide ((cond a 1 0 : Int) ≤ b)
  | .vNum a, .vBool b => decide (a ≤ (cond b 1 0 : Int))
  | _, _ => false

def jsGeB (a b : JSVal) : Bool := jsLeB b a

/-- Array.prototype.includes (SameValueZero, here jsStrictEq). -/
def arrContains (haystack value : JSVal) : Bool :=
  match haystack with
  | .vArr xs => xs.toList.any fun x => jsStrictEq x value
  | _ => false

def isStr : JSVal → Bool
  | .vStr _ => true
  | _ => false

def strOf : JSVal → String
  | .vStr s => s
  | _ => ""

/-- One operator entry of a field filter object, from the switch statement
of evalFieldFilter; recur is the recursive evaluation used by the not
operator. -/
def evalOpWith (recur : JSVal → JSVal → Bool) (value : JSVal) (opKey : String)
    (opVal : JSVal) : Bool :=
  if opKey == "equals" then jsStrictEq value opVal
  else if opKey == "in" then isArray opVal && arrContains opVal value
  else if opKey == "notIn" then !(isArray opVal && arrContains opVal value)
  else if opKey == "gt" then jsGtB (valueForComparison value) (valueForComparison opVal)
  else if opKey == "gte" then jsGeB (valueForComparison value) (valueForComparison opVal)
  else if opKey == "lt" then jsLtB (valueForComparison value) (valueForComparison opVal)
  else if opKey == "lte" then jsLeB (valueForComparison value) (valueForComparison opVal)
  else if opKey == "contains" then
    if isStr value && isStr opVal then strIncludesB (strOf value) (strOf opVal)
    else if isArray value then arrContains value opVal
    else false
  else if opKey == "startsWith" then
    isStr value && isStr opVal && strStartsWithB (strOf value) (strOf opVal)
  else if opKey == "endsWith" then
    isStr value && isStr opVal && strEndsWithB (strOf value) (strOf opVal)
  else if opKey == "not" then
    if isObject opVal then !recur value opVal else !jsStrictEq value opVal
  else jsStrictEq value opVal

/-- evalFieldFilter from prisma.service.ts, fuelled so that every call is
structurally computable; the fuel only bounds the nesting depth of the not
operator and is irrelevant once at least the condition's size is supplied. -/
def evalFieldFilterF : Nat → JSVal → JSVal → Bool
  | 0, _, _ => true
  | n + 1, value, condition =>
    if isObject condition then
      (entriesOf condition).all fun e =>
        evalOpWith (fun v c => evalFieldFilterF n v c) value e.1 e.2
    else jsStrictEq value condition

def evalFieldFilter (value condition : JSVal) : Bool :=
  evalFieldFilterF condition.size value condition

/-! ### Fuel irrelevance for the field-filter evaluator -/

theorem JSVal.size_pos (v : JSVal) : 1 ≤ v.size := by
  cases v <;> simp [JSVal.size]

theorem fields_val_size_lt_of_mem : ∀ {fs : JSFields} {e : String × JSVal},
    e ∈ fs.toList → e.2.size < (JSVal.vObj fs).size
  | .nil, e, h => by simp [JSFields.toList] at h
  | .cons k v tl, e, h => by
    rcases List.mem_cons.mp (by simpa [JSFields.toList] using h) with he | he
    · subst he
      simp [JSVal.size, JSFields.size]
      omega
    · have := fields_val_size_lt_of_mem (by simpa [JSFields.toList] using he)
      simp [JSVal.size, JSFields.size] at this ⊢
      omega

theorem items_size_lt_of_mem : ∀ {xs : JSItems} {v : JSVal},
    v ∈ xs.toList → v.size < (JSVal.vArr xs).size
  | .nil, v, h => by simp [JSItems.toList] at h
  | .cons hd tl, v, h => by
    rcases List.mem_cons.mp (by simpa [JSItems.toList] using h) with he | he
    · subst he
      simp [JSVal.size, JSItems.size]
      omega
    · have := items_size_lt_of_mem (by simpa [JSItems.toList] using he)
      simp [JSVal.size, JSItems.size] at this ⊢
      omega

theorem entriesOf_size_lt {c : JSVal} {e : String × JSVal}
    (h : e ∈ entriesOf c) : e.2.size < c.size := by
  cases c <;> simp [entriesOf] at h
  exact fields_val_size_lt_of_mem h

theorem objGet_size (c : JSVal) (k : String) :
    objGet c k = .vUndefined ∨ (objGet c k).size < c.size := by
  rw [objGet]
  cases hfind : (entriesOf c).find? (fun e => e.1 == k) with
  | none => exact Or.inl rfl
  | some e =>
    exact Or.inr (entriesOf_size_lt (List.mem_of_find?_eq_some hfind))

theorem all_congr_of_mem {α : Type} {l : List α} {f g : α → Bool}
    (h : ∀ a ∈ l, f a = g a) : l.all f = l.all g := by
  induction l with
  | nil => rfl
  | cons a l ih =>
    simp only [List.all_cons, h a (List.mem_cons_self a l),
      ih fun x hx => h x (List.mem_cons_of_mem a hx)]

theorem any_congr_of_mem {α : Type} {l : List α} {f g : α → Bool}
    (h : ∀ a ∈ l, f a = g a) : l.any f = l.any g := by
  induction l with
  | nil => rfl
  | cons a l ih =>
    simp only [List.any_cons, h a (List.mem_cons_self a l),
      ih fun x hx => h x (List.mem_cons_of_mem a hx)]

theorem evalOpWith_not_eq (recur : JSVal → JSVal → Bool) (value : JSVal) (k : String)
    (v : JSVal) (hk : (k == "not") = false) :
    evalOpWith recur value k v = evalOpWith (fun _ _ => true) value k v := by
  unfold evalOpWith
  by_cases h1 : (k == "equals") = true
  · rw [if_pos h1, if_pos h1]
  all_goals rw [if_neg h1, if_neg h1]
  all_goals by_cases h2 : (k == "in") = true
  · rw [if_pos h2, if_pos h2]
  all_goals rw [if_neg h2, if_neg h2]
  all_goals by_cases h3 : (k == "notIn") = true
  · rw [if_pos h3, if_pos h3]
  all_goals rw [if_neg h3, if_neg h3]
  all_goals by_cases h4 : (k == "gt") = true
  · rw [if_pos h4, if_pos h4]
  all_goals rw [if_neg h4, if_neg h4]
  all_goals by_cases h5 : (k == "gte") = true
  · rw [if_pos h5, if_pos h5]
  all_goals rw [if_neg h5, if_neg h5]
  all_goals by_cases h6 : (k == "lt") = true
  · rw [if_pos h6, if_pos h6]
  all_goals rw [if_neg h6, if_neg h6]
  all_goals by_cases h7 : (k == "lte") = true
  · rw [if_pos h7, if_pos h7]
  all_goals rw [if_neg h7, if_neg h7]
  all_goals by_cases h8 : (k == "contains") = true
  · rw [if_pos h8, if_pos h8]
  all_goals rw [if_neg h8, if_neg h8]
  all_goals by_cases h9 : (k == "startsWith") = true
  · rw [if_pos h9, if_pos h9]
  all_goals rw [if_neg h9, if_neg h9]
  all_goals by_cases h10 : (k == "endsWith") = true
  · rw [if_pos h10, if_pos h10]
  all_goals rw [if_neg h10, if_neg h10]
  all_goals rw [if_neg (by simp [hk]), if_neg (by simp [hk])]

theorem evalOpWith_congr (f g : JSVal → JSVal → Bool) (value : JSVal) (k : String)
    (v : JSVal) (h : isObject v = true → f value v = g value v) :
    evalOpWith f value k v = evalOpWith g value k v := by
  by_cases hk : (k == "not") = true
  · have hkey : k = "not" := by simpa using hk
    subst hkey
    unfold evalOpWith
    norm_num
    by_cases hobj : isObject v = true
    · rw [if_pos hobj, if_pos hobj, h hobj]
    · rw [if_neg hobj, if_neg hobj]
  · have hkf : (k == "not") = false := by simpa using hk
    rw [evalOpWith_not_eq f value k v hkf, evalOpWith_not_eq g value k v hkf]

theorem evalFieldFilterF_congr : ∀ n m value c, JSVal.size c ≤ n → JSVal.size c ≤ m →
    evalFieldFilterF n value c = evalFieldFilterF m value c := by
  intro n
  induction n using Nat.strong_induction_on with
  | _ n ih =>
    intro m value c hn hm
    have hc1 := JSVal.size_pos c
    rcases n with _ | n'
    · omega
    rcases m with _ | m'
    · omega
    by_cases hobj : isObject c = true
    · simp only [evalFieldFilterF, if_pos hobj]
      apply all_congr_of_mem
      intro e he
      apply evalOpWith_congr
      intro _
      have hsz := entriesOf_size_lt he
      exact ih n' (by omega) m' value e.2 (by omega) (by omega)
    · simp only [evalFieldFilterF, if_neg hobj]

theorem evalFieldFilter_unfold (value condition : JSVal) :
    evalFieldFilter value condition =
      if isObject condition then
        (entriesOf condition).all fun e => evalOpWith evalFieldFilter value e.1 e.2
      else jsStrictEq value condition := by
  rw [evalFieldFilter]
  have h1 := JSVal.size_pos condition
  obtain ⟨s, hs⟩ : ∃ s, JSVal.size condition = s + 1 := ⟨JSVal.size condition - 1, by omega⟩
  rw [hs]
  simp only [evalFieldFilterF]
  by_cases hobj : isObject condition = true
  · simp only [if_pos hobj]
    apply all_congr_of_mem
    intro e he
    apply evalOpWith_congr
    intro _
    have hsz := entriesOf_size_lt he
    exact evalFieldFilterF_congr s (JSVal.size e.2) value e.2 (by omega) (by omega)
  · simp only [if_neg hobj]

/-! ### Where-condition predicate (buildPredicate from prisma.service.ts) -/

def isLogicalKey (k : String) : Bool := k == "AND" || k == "OR" || k == "NOT"

/-- Field-level keys of a where condition: all keys except the logical
combinators, as computed by Object.keys(...).filter in buildPredicate. -/
def nonLogicalKeys (entries : List (String × JSVal)) : List String :=
  (entries.map Prod.fst).filter fun k => !isLogicalKey k

/-- The AND combinator step of buildPredicate: an array AND node requires
all sub-conditions, a truthy object node requires that single condition,
everything else imposes nothing. -/
def andBlockWith (recur : JSVal → Bool) (node : JSVal) : Bool :=
  if isArray node then (arrElems node).all recur
  else if truthy node && isObject node then recur node
  else true

/-- The OR combinator step: a non-empty array requires at least one
sub-condition; an empty array or any non-array imposes nothing. -/
def orBlockWith (recur : JSVal → Bool) (node : JSVal) : Bool :=
  if isArray node && !(arrElems node).isEmpty then (arrElems node).any recur
  else true

/-- The NOT combinator step: every sub-condition of an array node must
fail, a truthy object node must fail. -/
def notBlockWith (recur : JSVal → Bool) (node : JSVal) : Bool :=
  if isArray node then (arrElems node).all fun s => !recur s
  else if truthy node && isObject node then !recur node
  else true

/-- buildPredicate from prisma.service.ts, fuelled on the size of the
where-condition.  A falsy where yields the constant-true predicate; field
level filters and the three combinator blocks are conjoined.  Conditions
that are truthy non-objects have no string-keyed entries in this model
(JavaScript would enumerate the indices of a string, a shape the typed
API cannot produce). -/
def evalWhereF : Nat → JSVal → JSVal → Bool
  | 0, _, _ => true
  | n + 1, w, item =>
    if !truthy w then true
    else match w with
      | .vObj fs =>
        ((nonLogicalKeys fs.toList).all fun k =>
          evalFieldFilter (objGet item k) (objGet (.vObj fs) k)) &&
        andBlockWith (fun sub => evalWhereF n sub item) (objGet (.vObj fs) "AND") &&
        orBlockWith (fun sub => evalWhereF n sub item) (objGet (.vObj fs) "OR") &&
        notBlockWith (fun sub => evalWhereF n sub item) (objGet (.vObj fs) "NOT")
      | _ => true

def evalWhere (w item : JSVal) : Bool := evalWhereF w.size w item

/-- One-step unfolding of the fuelled predicate on an object condition:
an object is truthy, so the guard vanishes definitionally. -/
theorem evalWhereF_obj_succ (n : Nat) (fs : JSFields) (item : JSVal) :
    evalWhereF (n + 1) (.vObj fs) item =
      (((nonLogicalKeys fs.toList).all fun k =>
          evalFieldFilter (objGet item k) (objGet (.vObj fs) k)) &&
       andBlockWith (fun sub => evalWhereF n sub item) (objGet (.vObj fs) "AND") &&
       orBlockWith (fun sub => evalWhereF n sub item) (objGet (.vObj fs) "OR") &&
       notBlockWith (fun sub => evalWhereF n sub item) (objGet (.vObj fs) "NOT")) := rfl

theorem evalWhereF_not_truthy (n : Nat) (w item : JSVal) (h : truthy w = false) :
    evalWhereF n w item = true := by
  cases n with
  | zero => rfl
  | succ n =>
    cases w with
    | vObj fs => simp [truthy] at h
    | vUndefined => rfl
    | vNull => rfl
    | vDate t => rfl
    | vArr xs => rfl
    | vBool b => exact ite_self true
    | vNum i => exact ite_self true
    | vStr s => exact ite_self true

theorem andBlockWith_congr (f g : JSVal → Bool) (node : JSVal)
    (helems : ∀ s ∈ arrElems node, f s = g s) (hself : f node = g node) :
    andBlockWith f node = andBlockWith g node := by
  rw [andBlockWith, andBlockWith]
  split_ifs
  · exact all_congr_of_mem helems
  · exact hself
  · rfl

theorem orBlockWith_congr (f g : JSVal → Bool) (node : JSVal)
    (helems : ∀ s ∈ arrElems node, f s = g s) :
    orBlockWith f node = orBlockWith g node := by
  rw [orBlockWith, orBlockWith]
  split_ifs
  · exact any_congr_of_mem helems
  · rfl

theorem notBlockWith_congr (f g : JSVal → Bool) (node : JSVal)
    (helems : ∀ s ∈ arrElems node, f s = g s) (hself : f node = g node) :
    notBlockWith f node = notBlockWith g node := by
  rw [notBlockWith, notBlockWith]
  split_ifs
  · exact all_congr_of_mem fun a ha => congrArg Bool.not (helems a ha)
  · exact congrArg Bool.not hself
  · rfl

theorem arrElems_size_lt {node : JSVal} {s : JSVal} (h : s ∈ arrElems node) :
    s.size < node.size := by
  cases node <;> simp [arrElems] at h
  exact items_size_lt_of_mem h

theorem evalWhereF_congr : ∀ n m w item, JSVal.size w ≤ n → JSVal.size w ≤ m →
    evalWhereF n w item = evalWhereF m w item := by
  intro n
  induction n using Nat.strong_induction_on with
  | _ n ih =>
    intro m w item hn hm
    have hw1 := JSVal.size_pos w
    rcases n with _ | n'
    · omega
    rcases m with _ | m'
    · omega
    cases w with
    | vObj fs =>
      rw [evalWhereF_obj_succ, evalWhereF_obj_succ]
      have hblock : ∀ key : String,
          (∀ s ∈ arrElems (objGet (.vObj fs) key),
            evalWhereF n' s item = evalWhereF m' s item) ∧
          evalWhereF n' (objGet (.vObj fs) key) item =
            evalWhereF m' (objGet (.vObj fs) key) item := by
        intro key
        rcases objGet_size (.vObj fs) key with hg | hg
        · constructor
          · intro s hs
            rw [hg] at hs
            simp [arrElems] at hs
          · rw [hg, evalWhereF_not_truthy n' .vUndefined item rfl,
              evalWhereF_not_truthy m' .vUndefined item rfl]
        · constructor
          · intro s hs
            have hs2 := arrElems_size_lt hs
            exact ih n' (by omega) m' s item (by omega) (by omega)
          · exact ih n' (by omega) m' _ item (by omega) (by omega)
      rw [andBlockWith_congr _ _ _ (hblock "AND").1 (hblock "AND").2,
        orBlockWith_congr _ _ _ (hblock "OR").1,
        notBlockWith_congr _ _ _ (hblock "NOT").1 (hblock "NOT").2]
    | vUndefined => rfl
    | vNull => rfl
    | vDate t => rfl
    | vArr xs => rfl
    | vBool b => rfl
    | vNum i => rfl
    | vStr s => rfl

theorem evalWhere_obj (fs : JSFields) (item : JSVal) :
    evalWhere (.vObj fs) item =
      (((nonLogicalKeys fs.toList).all fun k =>
          evalFieldFilter (objGet item k) (objGet (.vObj fs) k)) &&
       andBlockWith (fun sub => evalWhere sub item) (objGet (.vObj fs) "AND") &&
       orBlockWith (fun sub => evalWhere sub item) (objGet (.vObj fs) "OR") &&
       notBlockWith (fun sub => evalWhere sub item) (objGet (.vObj fs) "NOT")) := by
  rw [evalWhere]
  have hsz : JSVal.size (.vObj fs) = JSFields.size fs + 1 := by
    simp [JSVal.size]; omega
  rw [hsz, evalWhereF_obj_succ]
  have hblock : ∀ key : String,
      (∀ s ∈ arrElems (objGet (.vObj fs) key),
        evalWhereF fs.size s item = evalWhere s item) ∧
      evalWhereF fs.size (objGet (.vObj fs) key) item =
        evalWhere (objGet (.vObj fs) key) item := by
    intro key
    rcases objGet_size (.vObj fs) key with hg | hg
    · constructor
      · intro s hs
        rw [hg] at hs
        simp [arrElems] at hs
      · rw [hg, evalWhereF_not_truthy fs.size .vUndefined item rfl, evalWhere,
          evalWhereF_not_truthy (JSVal.size .vUndefined) .vUndefined item rfl]
    · rw [hsz] at hg
      constructor
      · intro s hs
        have hs2 := arrElems_size_lt hs
        rw [evalWhere]
        exact evalWhereF_congr _ _ _ item (by omega) (by omega)
      · rw [evalWhere]
        exact evalWhereF_congr _ _ _ item (by omega) (by omega)
  rw [andBlockWith_congr _ _ _ (hblock "AND").1 (hblock "AND").2,
    orBlockWith_congr _ _ _ (hblock "OR").1,
    notBlockWith_congr _ _ _ (hblock "NOT").1 (hblock "NOT").2]

/-! ### Condition lists of the logical combinators, for stating the
predicate semantics the way the specification phrases it. -/

/-- The sub-conditions an AND (or NOT) node contributes: the elements of an
array node, a singleton for a truthy object node, nothing otherwise. -/
def andCondList (node : JSVal) : List JSVal :=
  if isArray node then arrElems node
  else if truthy node && isObject node then [node]
  else []

/-- The sub-conditions an OR node contributes: the elements of an array
node, nothing otherwise. -/
def orCondList (node : JSVal) : List JSVal :=
  if isArray node then arrElems node else []

def andConditions (fs : JSFields) : List JSVal := andCondList (objGet (.vObj fs) "AND")

def orConditions (fs : JSFields) : List JSVal := orCondList (objGet (.vObj fs) "OR")

def notConditions (fs : JSFields) : List JSVal := andCondList (objGet (.vObj fs) "NOT")

theorem andBlockWith_eq_true_iff (f : JSVal → Bool) (node : JSVal) :
    andBlockWith f node = true ↔ ∀ c ∈ andCondList node, f c = true := by
  rw [andBlockWith, andCondList]
  split_ifs
  · exact List.all_eq_true
  · simp
  · simp

theorem orBlockWith_eq_true_iff (f : JSVal → Bool) (node : JSVal) :
    orBlockWith f node = true ↔
      (orCondList node = [] ∨ ∃ c ∈ orCondList node, f c = true) := by
  rw [orBlockWith, orCondList]
  by_cases ha : isArray node = true
  · by_cases he : (arrElems node).isEmpty = true
    · rw [if_neg (by simp [ha, he]), if_pos ha]
      simp [List.isEmpty_iff.mp he]
    · rw [if_pos (by simp [ha, he]), if_pos ha]
      rw [List.any_eq_true]
      constructor
      · exact Or.inr
      · rintro (hnil | hex)
        · exact absurd hnil (by simpa [List.isEmpty_iff] using he)
        · exact hex
  · rw [if_neg (by simp [ha]), if_neg ha]
    simp

theorem notBlockWith_eq_true_iff (f : JSVal → Bool) (node : JSVal) :
    notBlockWith f node = true ↔ ∀ c ∈ andCondList node, f c = false := by
  rw [notBlockWith, andCondList]
  split_ifs
  · rw [List.all_eq_true]
    simp [Bool.not_eq_true']
  · simp [Bool.not_eq_true']
  · simp

/-- C6: the compiled predicate accepts a record exactly when every
field-level filter holds, every condition under AND holds, a non-empty OR
list has at least one holding condition (an empty or absent OR imposes no
constraint), and no condition under NOT holds. -/
theorem buildPredicate_semantics (fs : JSFields) (item : JSVal) :
    evalWhere (.vObj fs) item = true ↔
      ((∀ k ∈ nonLogicalKeys fs.toList,
          evalFieldFilter (objGet item k) (objGet (.vObj fs) k) = true) ∧
       (∀ c ∈ andConditions fs, evalWhere c item = true) ∧
       (orConditions fs = [] ∨ ∃ c ∈ orConditions fs, evalWhere c item = true) ∧
       (∀ c ∈ notConditions fs, evalWhere c item = false)) := by
  rw [evalWhere_obj]
  simp only [Bool.and_eq_true]
  rw [List.all_eq_true, andBlockWith_eq_true_iff, orBlockWith_eq_true_iff,
    notBlockWith_eq_true_iff]
  rw [andConditions, orConditions, notConditions]
  tauto

-- concrete evaluation sanity checks (spec 8 predicate table)
example : evalWhere (jobj [("OR", jarr [jobj [("status", .vStr "active")],
    jobj [("status", .vStr "pending")]])]) (jobj [("status", .vStr "active")]) = true := rfl
example : evalWhere (jobj [("OR", jarr [jobj [("status", .vStr "active")],
    jobj [("status", .vStr "pending")]])]) (jobj [("status", .vStr "closed")]) = false := rfl
example : evalWhere (jobj [("NOT", jobj [("status", .vStr "closed")])])
    (jobj [("status", .vStr "closed")]) = false := rfl
example : evalWhere (jobj [("NOT", jobj [("status", .vStr "closed")])])
    (jobj [("status", .vStr "open")]) = true := rfl
example : evalWhere (jobj [("age", jobj [("gte", .vNum 18), ("lt", .vNum 65)])])
    (jobj [("age", .vNum 30)]) = true := rfl
example : evalWhere (jobj [("age", jobj [("gte", .vNum 18), ("lt", .vNum 65)])])
    (jobj [("age", .vNum 70)]) = false := rfl
example : evalWhere (jobj []) (jobj [("x", .vNum 1)]) = true := rfl

/-! ### Key resolution (tryBuildKeyFromWhere, getKeyFromEntity) -/

/-- A Dexie primary key path: a single property name or a compound list of
property names in declared order; a table without key path is none at the
call sites below. -/
inductive KeyPath where
  | single : String → KeyPath
  | compound : List String → KeyPath
deriving DecidableEq, Repr

/-- hasOnlyKeys from prisma.service.ts, applied to the key list of the
probe object (JavaScript object keys are unique, so the length comparison
against the deduplicating Object.fromEntries construction is the same). -/
def hasOnlyKeys (objKeys keys : List String) : Bool :=
  objKeys.length == keys.length && keys.all fun k => objKeys.contains k

/-- tryBuildKeyFromWhere from prisma.service.ts.  The source returns the
raw equals member for an object filter, and a caller treats an undefined
return as a failed probe; the two undefined checks below fold that
convention into the Option result. -/
def tryBuildKeyFromWhere (keyPath : Option KeyPath) (w : JSVal) : Option JSVal :=
  if !truthy w then none
  else match keyPath with
    | none => none
    | some (.single kp) =>
      let keys := nonLogicalKeys (entriesOf w)
      if hasOnlyKeys keys [kp] then
        let raw := objGet w kp
        if isUndefined raw then none
        else if isObject raw then
          let eqVal := objGet raw "equals"
          if isUndefined eqVal then none else some eqVal
        else some raw
      else none
    | some (.compound kps) =>
      let keys := nonLogicalKeys (entriesOf w)
      if hasOnlyKeys keys kps then
        some (jarr (kps.map fun k =>
          let raw := objGet w k
          if isObject raw then objGet raw "equals" else raw))
      else none

/-- getKeyFromEntity from prisma.service.ts; the source returns
rec[keyPath] and its callers compare the result against undefined, which
the Option result folds in. -/
def getKeyFromEntity (keyPath : Option KeyPath) (entity : JSVal) : Option JSVal :=
  match keyPath with
  | none => none
  | some (.single kp) =>
    let v := objGet entity kp
    if isUndefined v then none else some v
  | some (.compound kps) => some (jarr (kps.map fun k => objGet entity k))

/-! ### Ordering (compareUnknown, normalizeOrderBy, toComparator) -/

inductive SortDir where
  | asc : SortDir
  | desc : SortDir
deriving DecidableEq, Repr

def isNull : JSVal → Bool
  | .vNull => true
  | _ => false

/-- compareUnknown from prisma.service.ts. -/
def compareUnknown (a b : JSVal) (dir : SortDir) : Int :=
  let direction : Int := if dir = .desc then -1 else 1
  if jsStrictEq a b then 0
  else if isUndefined a then -1 * direction
  else if isUndefined b then 1 * direction
  else if isNull a then -1 * direction
  else if isNull b then 1 * direction
  else
    let av := valueForComparison a
    let bv := valueForComparison b
    if jsGtB av bv then 1 * direction
    else if jsLtB av bv then -1 * direction
    else 0

/-- normalizeOrderBy from prisma.service.ts: entries with an absent
direction are skipped; a single specification is the singleton list. -/
def normalizeOrderBy (orderBy : List (List (String × Option SortDir))) :
    List (String × SortDir) :=
  (orderBy.map fun ob => ob.filterMap fun e => e.2.map fun d => (e.1, d)).flatten

/-- The comparator loop built by toComparator: first differing field wins. -/
def comparatorRun : List (String × SortDir) → JSVal → JSVal → Int
  | [], _, _ => 0
  | p :: rest, a, b =>
    let cmp := compareUnknown (objGet a p.1) (objGet b p.1) p.2
    if cmp ≠ 0 then cmp else comparatorRun rest a b

/-- toComparator from prisma.service.ts: no usable parts means no
comparator (the callers then skip sorting). -/
def toComparator (orderBy : List (List (String × Option SortDir))) :
    Option (JSVal → JSVal → Int) :=
  let parts := normalizeOrderBy orderBy
  if parts.length = 0 then none else some fun a b => comparatorRun parts a b

/-! ### Table store and the CRUD operations the claims need

The underlying Dexie table is modelled as the list of its records; get,
delete and the filtered cursor operate on that list.  Key comparison for
get and delete uses structural equality of the extracted key values, as
IndexedDB compares keys by value. -/

/-- Structural key equality: primitives via strict equality, compound key
tuples elementwise. -/
def idbKeyEq (a b : JSVal) : Bool :=
  match a, b with
  | .vArr xs, .vArr ys =>
    let xl := xs.toList
    let yl := ys.toList
    xl.length == yl.length && (xl.zip yl).all fun p => jsStrictEq p.1 p.2
  | _, _ => jsStrictEq a b

/-- The primary key value of a record under a key path. -/
def recordKey (kp : KeyPath) (r : JSVal) : JSVal :=
  match kp with
  | .single k => objGet r k
  | .compound ks => jarr (ks.map fun k => objGet r k)

/-- table.get(key): the record whose primary key equals the given key. -/
def tableGet (keyPath : Option KeyPath) (tbl : List JSVal) (key : JSVal) : Option JSVal :=
  match keyPath with
  | none => none
  | some kp => tbl.find? fun r => idbKeyEq (recordKey kp r) key

/-- table.delete(key): removes the records whose primary key equals the
given key (at most one exists in a real store). -/
def tableDelete (keyPath : Option KeyPath) (tbl : List JSVal) (key : JSVal) : List JSVal :=
  match keyPath with
  | none => tbl
  | some kp => tbl.filter fun r => !idbKeyEq (recordKey kp r) key

/-- collectionForWhere from prisma.service.ts: the whole table for a falsy
where, otherwise the cursor filtered by the compiled predicate. -/
def collectionForWhere (tbl : List JSVal) (w : JSVal) : List JSVal :=
  if !truthy w then tbl else tbl.filter fun r => evalWhere w r

/-- findUnique from prisma.service.ts: a direct key lookup when the
primary-key probe succeeds, otherwise the first record of the filtered
scan; absence is none. -/
def findUnique (keyPath : Option KeyPath) (tbl : List JSVal) (w : JSVal) : Option JSVal :=
  match tryBuildKeyFromWhere keyPath w with
  | some key => tableGet keyPath tbl key
  | none => (collectionForWhere tbl w).head?

/-- delete from prisma.service.ts: resolve the target via findUnique, fail
when absent, resolve the key via the fast path or extraction from the
target, fail when no key resolves, otherwise remove by key and return the
pre-removal record together with the updated table. -/
def PrismaService.delete (keyPath : Option KeyPath) (tbl : List JSVal) (w : JSVal) :
    Except String (JSVal × List JSVal) :=
  match findUnique keyPath tbl w with
  | none => .error "Record to delete not found."
  | some target =>
    match (tryBuildKeyFromWhere keyPath w).orElse fun _ => getKeyFromEntity keyPath target with
    | none => .error "Unable to resolve primary key for delete."
    | some key => .ok (target, tableDelete keyPath tbl key)

/-! ### Association-list facts about object literals -/

theorem JSFields.toList_ofList (l : List (String × JSVal)) :
    (JSFields.ofList l).toList = l := by
  induction l with
  | nil => rfl
  | cons e tl ih => simp [JSFields.ofList, JSFields.toList, ih]

theorem entriesOf_jobj (l : List (String × JSVal)) : entriesOf (jobj l) = l := by
  rw [jobj, entriesOf, JSFields.toList_ofList]

theorem objGet_jobj (l : List (String × JSVal)) (k : String) :
    objGet (jobj l) k =
      (match l.find? (fun e => e.1 == k) with
       | some e => e.2
       | none => .vUndefined) := by
  rw [objGet, entriesOf_jobj]

theorem find?_filter_nonlogical (l : List (String × JSVal)) (k : String)
    (hk : isLogicalKey k = false) :
    (l.filter fun e => !isLogicalKey e.1).find? (fun e => e.1 == k) =
      l.find? (fun e => e.1 == k) := by
  induction l with
  | nil => rfl
  | cons e tl ih =>
    by_cases hek : (e.1 == k) = true
    · have he : e.1 = k := by simpa using hek
      have hlog : isLogicalKey e.1 = false := by rw [he]; exact hk
      rw [List.filter_cons_of_pos (by simp [hlog])]
      simp only [List.find?_cons, hek]
    · have hekf : (e.1 == k) = false := by simpa using hek
      by_cases hlog : isLogicalKey e.1 = true
      · rw [List.filter_cons_of_neg (by simp [hlog])]
        conv_rhs => rw [List.find?_cons]
        rw [hekf, ih]
      · rw [List.filter_cons_of_pos (by simp at hlog; simp [hlog])]
        simp only [List.find?_cons, hekf]
        exact ih

theorem objGet_jobj_filter (l : List (String × JSVal)) (k : String)
    (hk : isLogicalKey k = false) :
    objGet (jobj (l.filter fun e => !isLogicalKey e.1)) k = objGet (jobj l) k := by
  rw [objGet_jobj, objGet_jobj, find?_filter_nonlogical l k hk]

theorem map_fst_filter_nonlogical (l : List (String × JSVal)) :
    (l.filter fun e => !isLogicalKey e.1).map Prod.fst =
      (l.map Prod.fst).filter fun k => !isLogicalKey k := by
  induction l with
  | nil => rfl
  | cons e tl ih =>
    by_cases hlog : isLogicalKey e.1 = true
    · rw [List.filter_cons_of_neg (by simp [hlog]), List.map_cons,
        List.filter_cons_of_neg (by simp [hlog]), ih]
    · have hl : isLogicalKey e.1 = false := by simpa using hlog
      rw [List.filter_cons_of_pos (by simp [hl]), List.map_cons, List.map_cons,
        List.filter_cons_of_pos (by simp [hl]), ih]

theorem nonLogicalKeys_filter (l : List (String × JSVal)) :
    nonLogicalKeys (l.filter fun e => !isLogicalKey e.1) = nonLogicalKeys l := by
  rw [nonLogicalKeys, nonLogicalKeys, map_fst_filter_nonlogical, List.filter_filter]
  simp

theorem mem_nonLogicalKeys_not_logical {l : List (String × JSVal)} {k : String}
    (h : k ∈ nonLogicalKeys l) : isLogicalKey k = false := by
  rw [nonLogicalKeys] at h
  have := (List.mem_filter.mp h).2
  simpa using this

/-! ### The predicate never reads logically-named record fields -/

theorem evalWhereF_item_congr : ∀ n w i1 i2,
    (∀ k, isLogicalKey k = false → objGet i1 k = objGet i2 k) →
    evalWhereF n w i1 = evalWhereF n w i2 := by
  intro n
  induction n with
  | zero => intro w i1 i2 _; rfl
  | succ n ih =>
    intro w i1 i2 hobj
    cases w with
    | vObj fs =>
      rw [evalWhereF_obj_succ, evalWhereF_obj_succ]
      have hfield : ((nonLogicalKeys fs.toList).all fun k =>
          evalFieldFilter (objGet i1 k) (objGet (.vObj fs) k)) =
          ((nonLogicalKeys fs.toList).all fun k =>
            evalFieldFilter (objGet i2 k) (objGet (.vObj fs) k)) := by
        apply all_congr_of_mem
        intro k hk
        rw [hobj k (mem_nonLogicalKeys_not_logical hk)]
      rw [hfield,
        andBlockWith_congr _ _ _ (fun s _ => ih s i1 i2 hobj) (ih _ i1 i2 hobj),
        orBlockWith_congr _ _ _ (fun s _ => ih s i1 i2 hobj),
        notBlockWith_congr _ _ _ (fun s _ => ih s i1 i2 hobj) (ih _ i1 i2 hobj)]
    | vUndefined => rfl
    | vNull => rfl
    | vDate t => rfl
    | vArr xs => rfl
    | vBool b => rfl
    | vNum i => rfl
    | vStr s => rfl

theorem evalWhere_item_congr (w i1 i2 : JSVal)
    (h : ∀ k, isLogicalKey k = false → objGet i1 k = objGet i2 k) :
    evalWhere w i1 = evalWhere w i2 :=
  evalWhereF_item_congr _ _ _ _ h

theorem isObject_of_isUndefined {v : JSVal} (h : isUndefined v = true) : isObject v = false := by
  cases v <;> simp [isUndefined, isObject] at h ⊢

theorem tryBuildKeyFromWhere_single_eq (kp : String) (l : List (String × JSVal)) :
    tryBuildKeyFromWhere (some (.single kp)) (jobj l) =
      (if hasOnlyKeys (nonLogicalKeys l) [kp] then
        if isUndefined (objGet (jobj l) kp) then none
        else if isObject (objGet (jobj l) kp) then
          (if isUndefined (objGet (objGet (jobj l) kp) "equals") then none
           else some (objGet (objGet (jobj l) kp) "equals"))
        else some (objGet (jobj l) kp)
       else none) := by
  have h0 : tryBuildKeyFromWhere (some (.single kp)) (jobj l) =
      (if hasOnlyKeys (nonLogicalKeys (entriesOf (jobj l))) [kp] then
        if isUndefined (objGet (jobj l) kp) then none
        else if isObject (objGet (jobj l) kp) then
          (if isUndefined (objGet (objGet (jobj l) kp) "equals") then none
           else some (objGet (objGet (jobj l) kp) "equals"))
        else some (objGet (jobj l) kp)
       else none) := rfl
  rw [h0, entriesOf_jobj]

theorem tryBuildKeyFromWhere_compound_eq (kps : List String) (l : List (String × JSVal)) :
    tryBuildKeyFromWhere (some (.compound kps)) (jobj l) =
      (if hasOnlyKeys (nonLogicalKeys l) kps then
        some (jarr (kps.map fun k =>
          if isObject (objGet (jobj l) k) then objGet (objGet (jobj l) k) "equals"
          else objGet (jobj l) k))
       else none) := by
  have h0 : tryBuildKeyFromWhere (some (.compound kps)) (jobj l) =
      (if hasOnlyKeys (nonLogicalKeys (entriesOf (jobj l))) kps then
        some (jarr (kps.map fun k =>
          if isObject (objGet (jobj l) k) then objGet (objGet (jobj l) k) "equals"
          else objGet (jobj l) k))
       else none) := rfl
  rw [h0, entriesOf_jobj]

/-- C2 (amended): the fast path succeeds iff the field-level keys are
exactly the key path and the probed filter is a defined literal or an
object with a defined equals member; extra operators beside equals do not
block extraction, and the extracted value is the equals member for object
filters or the literal otherwise. -/
theorem tryBuildKeyFromWhere_characterization (kp : String) (kps : List String)
    (l : List (String × JSVal)) :
    (tryBuildKeyFromWhere (some (.single kp)) (jobj l) ≠ none ↔
      (hasOnlyKeys (nonLogicalKeys l) [kp] = true ∧
        ((isObject (objGet (jobj l) kp) = false ∧ isUndefined (objGet (jobj l) kp) = false) ∨
         (isObject (objGet (jobj l) kp) = true ∧
           isUndefined (objGet (objGet (jobj l) kp) "equals") = false)))) ∧
    (∀ v, tryBuildKeyFromWhere (some (.single kp)) (jobj l) = some v →
      v = if isObject (objGet (jobj l) kp) = true then objGet (objGet (jobj l) kp) "equals"
          else objGet (jobj l) kp) ∧
    (tryBuildKeyFromWhere (some (.compound kps)) (jobj l) =
      if hasOnlyKeys (nonLogicalKeys l) kps = true then
        some (jarr (kps.map fun k =>
          if isObject (objGet (jobj l) k) = true then objGet (objGet (jobj l) k) "equals"
          else objGet (jobj l) k))
      else none) := by
  refine ⟨?_, ?_, ?_⟩
  · rw [tryBuildKeyFromWhere_single_eq]
    by_cases h1 : hasOnlyKeys (nonLogicalKeys l) [kp] = true
    · rw [if_pos h1]
      by_cases h2 : isUndefined (objGet (jobj l) kp) = true
      · rw [if_pos h2]
        simp [h1, h2, isObject_of_isUndefined h2]
      · rw [if_neg h2]
        by_cases h3 : isObject (objGet (jobj l) kp) = true
        · rw [if_pos h3]
          by_cases h4 : isUndefined (objGet (objGet (jobj l) kp) "equals") = true
          · rw [if_pos h4]
            simp [h1, h2, h3, h4]
          · rw [if_neg h4]
            simp only [Bool.not_eq_true] at h4
            simp [h1, h2, h3, h4]
        · rw [if_neg h3]
          simp only [Bool.not_eq_true] at h2 h3
          simp [h1, h2, h3]
    · rw [if_neg h1]
      simp [h1]
  · rw [tryBuildKeyFromWhere_single_eq]
    intro v hv
    by_cases h1 : hasOnlyKeys (nonLogicalKeys l) [kp] = true
    · rw [if_pos h1] at hv
      by_cases h2 : isUndefined (objGet (jobj l) kp) = true
      · rw [if_pos h2] at hv
        exact absurd hv (by simp)
      · rw [if_neg h2] at hv
        by_cases h3 : isObject (objGet (jobj l) kp) = true
        · rw [if_pos h3] at hv
          by_cases h4 : isUndefined (objGet (objGet (jobj l) kp) "equals") = true
          · rw [if_pos h4] at hv
            exact absurd hv (by simp)
          · rw [if_neg h4] at hv
            rw [if_pos h3]
            exact (Option.some.injEq _ _ ▸ hv).symm
        · rw [if_neg h3] at hv
          rw [if_neg h3]
          exact (Option.some.injEq _ _ ▸ hv).symm
    · rw [if_neg h1] at hv
      exact absurd hv (by simp)
  · exact tryBuildKeyFromWhere_compound_eq kps l

/-- C2 (counterexample): a filter object that carries an extra gt operator
beside equals is not an equals-only object, yet the fast path still
extracts the key 5 instead of reporting no match. -/
theorem tryBuildKeyFromWhere_extra_operator_counterexample :
    tryBuildKeyFromWhere (some (.single "id"))
      (jobj [("id", jobj [("equals", .vNum 5), ("gt", .vNum 10)])]) = some (.vNum 5) ∧
    evalWhere (jobj [("id", jobj [("equals", .vNum 5), ("gt", .vNum 10)])])
      (jobj [("id", .vNum 5)]) = false := ⟨rfl, rfl⟩

theorem jsStrictEq_undef_left (v : JSVal) : jsStrictEq .vUndefined v = isUndefined v := by
  cases v <;> rfl

theorem jsStrictEq_null_left (v : JSVal) : jsStrictEq .vNull v = isNull v := by
  cases v <;> rfl

/-- C3 (amended): in ascending order an absent/undefined value sorts before
null, which sorts before any defined value; the direction sign is applied
to these branches as well, so under desc the placement is exactly
reversed. -/
theorem compareUnknown_undef_null_placement (v : JSVal) (h1 : isUndefined v = false)
    (h2 : isNull v = false) :
    compareUnknown .vUndefined .vNull .asc = -1 ∧
    compareUnknown .vUndefined v .asc = -1 ∧
    compareUnknown .vNull v .asc = -1 ∧
    compareUnknown .vUndefined .vNull .desc = 1 ∧
    compareUnknown .vUndefined v .desc = 1 ∧
    compareUnknown .vNull v .desc = 1 := by
  refine ⟨rfl, ?_, ?_, rfl, ?_, ?_⟩ <;>
    simp [compareUnknown, jsStrictEq_undef_left, jsStrictEq_null_left, h1, h2,
      show isUndefined .vUndefined = true from rfl, show isNull .vNull = true from rfl,
      show isUndefined .vNull = false from rfl, show isNull .vUndefined = false from rfl]

theorem compareUnknown_undef_null_placement_witness :
    isUndefined (.vNum 0) = false ∧ isNull (.vNum 0) = false ∧
    (compareUnknown .vUndefined .vNull .asc = -1 ∧
     compareUnknown .vUndefined (.vNum 0) .asc = -1 ∧
     compareUnknown .vNull (.vNum 0) .asc = -1 ∧
     compareUnknown .vUndefined .vNull .desc = 1 ∧
     compareUnknown .vUndefined (.vNum 0) .desc = 1 ∧
     compareUnknown .vNull (.vNum 0) .desc = 1) :=
  ⟨rfl, rfl, compareUnknown_undef_null_placement (.vNum 0) rfl rfl⟩

/-- C3 (counterexample): the claim says the relative placement of undefined
against defined values is direction independent, but the comparator negates
it under desc: an undefined field compares -1 (before) under asc and 1
(after) under desc, both via compareUnknown directly and through the
compiled comparator loop. -/
theorem compareUnknown_direction_counterexample :
    compareUnknown .vUndefined (.vNum 0) .asc = -1 ∧
    compareUnknown .vUndefined (.vNum 0) .desc = 1 ∧
    comparatorRun [("x", .asc)] (jobj []) (jobj [("x", .vNum 0)]) = -1 ∧
    comparatorRun [("x", .desc)] (jobj []) (jobj [("x", .vNum 0)]) = 1 :=
  ⟨rfl, rfl, rfl, rfl⟩

/-- C10: the three combinator names are never read from the record: the
compiled predicate is unchanged when the logically-named fields of the
record are dropped, and the fast-path key extraction is unchanged when the
logically-named entries of the where-condition are dropped. -/
theorem logical_keys_never_field_constraints (w : JSVal)
    (itemList l : List (String × JSVal)) (keyPath : Option KeyPath) :
    evalWhere w (jobj itemList) =
      evalWhere w (jobj (itemList.filter fun e => !isLogicalKey e.1)) ∧
    tryBuildKeyFromWhere keyPath (jobj l) =
      tryBuildKeyFromWhere keyPath (jobj (l.filter fun e => !isLogicalKey e.1)) := by
  constructor
  · exact evalWhere_item_congr w _ _ fun k hk => (objGet_jobj_filter itemList k hk).symm
  · match keyPath with
    | none => rfl
    | some (.single kp) =>
      rw [tryBuildKeyFromWhere_single_eq, tryBuildKeyFromWhere_single_eq,
        nonLogicalKeys_filter]
      by_cases h1 : hasOnlyKeys (nonLogicalKeys l) [kp] = true
      · have hkp : kp ∈ nonLogicalKeys l := by
          rw [hasOnlyKeys, Bool.and_eq_true] at h1
          have := h1.2
          simp only [List.all_cons, List.all_nil, Bool.and_true] at this
          simpa using this
        rw [objGet_jobj_filter l kp (mem_nonLogicalKeys_not_logical hkp)]
      · rw [if_neg h1, if_neg h1]
    | some (.compound kps) =>
      rw [tryBuildKeyFromWhere_compound_eq, tryBuildKeyFromWhere_compound_eq,
        nonLogicalKeys_filter]
      by_cases h1 : hasOnlyKeys (nonLogicalKeys l) kps = true
      · rw [if_pos h1, if_pos h1]
        have hmem : ∀ k ∈ kps, k ∈ nonLogicalKeys l := by
          rw [hasOnlyKeys, Bool.and_eq_true] at h1
          intro k hk
          have := (List.all_eq_true.mp h1.2) k hk
          simpa using this
        have hmap : (kps.map fun k =>
            if isObject (objGet (jobj (l.filter fun e => !isLogicalKey e.1)) k) then
              objGet (objGet (jobj (l.filter fun e => !isLogicalKey e.1)) k) "equals"
            else objGet (jobj (l.filter fun e => !isLogicalKey e.1)) k) =
            (kps.map fun k =>
              if isObject (objGet (jobj l) k) then objGet (objGet (jobj l) k) "equals"
              else objGet (jobj l) k) := by
          apply List.map_congr_left
          intro k hk
          rw [objGet_jobj_filter l k (mem_nonLogicalKeys_not_logical (hmem k hk))]
        rw [hmap]
      · rw [if_neg h1, if_neg h1]

/-- C8 (amended): delete fails with the not-found error when findUnique
resolves nothing; when a target is resolved it is removed by its key and
returned as it was before removal, provided a key resolves via the fast
path or extraction; when no key resolves, delete fails with the
key-resolution error instead of removing anything. -/
theorem delete_resolution_behavior (keyPath : Option KeyPath) (tbl : List JSVal)
    (w : JSVal) :
    (findUnique keyPath tbl w = none →
      PrismaService.delete keyPath tbl w = .error "Record to delete not found.") ∧
    (∀ target, findUnique keyPath tbl w = some target →
      (((tryBuildKeyFromWhere keyPath w).orElse
          fun _ => getKeyFromEntity keyPath target) = none →
        PrismaService.delete keyPath tbl w =
          .error "Unable to resolve primary key for delete.") ∧
      (∀ key, ((tryBuildKeyFromWhere keyPath w).orElse
          fun _ => getKeyFromEntity keyPath target) = some key →
        PrismaService.delete keyPath tbl w = .ok (target, tableDelete keyPath tbl key))) := by
  refine ⟨?_, ?_⟩
  · intro h
    rw [PrismaService.delete, h]
  · intro target h
    constructor
    · intro hk
      rw [PrismaService.delete, h]
      simp only [hk]
    · intro key hk
      rw [PrismaService.delete, h]
      simp only [hk]

/-- C8 (counterexample): on a table whose primary key is outside the
records (no key path), findUnique resolves a matching record via the scan,
yet delete raises the key-resolution error rather than removing the
resolved record, so delete does not always remove what findUnique
resolves. -/
theorem delete_unresolvable_key_counterexample :
    findUnique none [jobj [("name", .vStr "x")]] (jobj [("name", .vStr "x")]) =
      some (jobj [("name", .vStr "x")]) ∧
    PrismaService.delete none [jobj [("name", .vStr "x")]] (jobj [("name", .vStr "x")]) =
      .error "Unable to resolve primary key for delete." := ⟨rfl, rfl⟩

/-- C1 (counterexample): with no window available, getVersion on any
schema (here the empty one) returns version 2, not version 1: the computed
signature never matches the default empty signature, so the headless code
path returns the incremented default. -/
theorem getVersion_headless_counterexample :
    (getVersion false [] "db" []).1 = 2 ∧ ((2 : Int) ≠ 1) :=
  ⟨rfl, by decide⟩

/-- C5 (counterexample): the same multiset of column registrations applied
in two different orders produces different schema strings: registering z
as primary then re-registering it as non-primary leaves z non-primary
("a, z"), while the reverse merge order leaves z primary ("z, a"), because
the option merge is order sensitive for conflicting duplicate
registrations. -/
theorem applyColumns_order_counterexample :
    ([("z", ({ primary := some true } : ColumnOptions)), ("z", { primary := some false }),
        ("a", {})] : List (String × ColumnOptions)).Perm
      [("z", { primary := some false }), ("z", { primary := some true }), ("a", {})] ∧
    (applyColumns ⟨"T", []⟩ [("z", { primary := some true }), ("z", { primary := some false }),
        ("a", {})]).map (fun m => buildTableSchema (mergeColumns [m.columns])) = .ok "a, z" ∧
    (applyColumns ⟨"T", []⟩ [("z", { primary := some false }), ("z", { primary := some true }),
        ("a", {})]).map (fun m => buildTableSchema (mergeColumns [m.columns])) = .ok "z, a" ∧
    ("a, z" : String) ≠ "z, a" :=
  ⟨by decide, rfl, rfl, by decide⟩

/-- C5 (amended): when every column property is registered at most once per
entity (so that at most one column is primary and property keys are
distinct) and table names are distinct, the per-table schema string, the
whole schema and the signature are invariant under permuting the column
lists and the entity list. -/
theorem buildSchema_order_invariance (cols1 cols2 : List ColumnMeta)
    (ents1 ents2 : List EntityMeta) (hcp : cols1.Perm cols2)
    (hcnd : (cols1.map (·.propertyKey)).Nodup) (hone : atMostOnePrimary cols1)
    (hep : ents1.Perm ents2) (hend : (ents1.map (·.tableName)).Nodup) :
    buildTableSchema cols1 = buildTableSchema cols2 ∧
    buildSchema ents1 = buildSchema ents2 ∧
    computeSignature (buildSchema ents1) = computeSignature (buildSchema ents2) :=
  ⟨buildTableSchema_perm _ _ hcp hcnd hone, buildSchema_perm _ _ hep hend,
   by rw [buildSchema_perm _ _ hep hend]⟩

theorem buildSchema_order_invariance_witness :
    buildTableSchema [⟨"id", { primary := some true }⟩, ⟨"name", {}⟩] =
      buildTableSchema [⟨"name", {}⟩, ⟨"id", { primary := some true }⟩] ∧
    buildSchema [⟨"b", [⟨"id", { primary := some true }⟩]⟩, ⟨"a", [⟨"x", {}⟩]⟩] =
      buildSchema [⟨"a", [⟨"x", {}⟩]⟩, ⟨"b", [⟨"id", { primary := some true }⟩]⟩] ∧
    computeSignature (buildSchema [⟨"b", [⟨"id", { primary := some true }⟩]⟩,
        ⟨"a", [⟨"x", {}⟩]⟩]) =
      computeSignature (buildSchema [⟨"a", [⟨"x", {}⟩]⟩,
        ⟨"b", [⟨"id", { primary := some true }⟩]⟩]) :=
  buildSchema_order_invariance
    [⟨"id", { primary := some true }⟩, ⟨"name", {}⟩]
    [⟨"name", {}⟩, ⟨"id", { primary := some true }⟩]
    [⟨"b", [⟨"id", { primary := some true }⟩]⟩, ⟨"a", [⟨"x", {}⟩]⟩]
    [⟨"a", [⟨"x", {}⟩]⟩, ⟨"b", [⟨"id", { primary := some true }⟩]⟩]
    (by decide) (by decide)
    (by intro c1 hc1 c2 hc2 hp1 hp2
        fin_cases hc1 <;> fin_cases hc2 <;> simp_all [isPrimaryCol, optTrue])
    (by decide) (by decide)

/-- C7: an entity descriptor never carries two primary columns: a column
registration that requests primary while a different property is already
primary fails; a successful registration preserves the at-most-one-primary
invariant; and a successful inheritance resolution returns a column set
with at most one distinct primary property key. -/
theorem single_primary_invariant (meta : EntityMeta) (key : String)
    (options : ColumnOptions) (tname : String) (chain : List (List ColumnMeta)) :
    ((optTrue options.primary = true ∧
        ∃ c ∈ meta.columns, isPrimaryCol c = true ∧ c.propertyKey ≠ key) →
      ∃ e, addColumn meta key options = .error e) ∧
    (∀ m', addColumn meta key options = .ok m' → atMostOnePrimary meta.columns →
      atMostOnePrimary m'.columns) ∧
    (∀ res, resolveEntity tname chain = .ok res →
      ((res.filter isPrimaryCol).map (·.propertyKey)).dedup.length ≤ 1) :=
  ⟨fun h => addColumn_fails_on_second_primary meta key options h.1 h.2,
   fun m' hok hone => addColumn_preserves_single_primary meta key options m' hok hone,
   fun res hres => resolveEntity_single_primary tname chain res hres⟩

/-- C9: a notIn filter with a non-array operand accepts every value while
an in filter with the same non-array operand rejects every value: the two
operators are not symmetric for malformed operands. -/
theorem notIn_in_nonarray_asymmetry (v x : JSVal) (h : isArray x = false) :
    evalFieldFilter v (jobj [("notIn", x)]) = true ∧
    evalFieldFilter v (jobj [("in", x)]) = false := by
  constructor
  · rw [evalFieldFilter_unfold, if_pos (by rfl)]
    simp only [jobj, JSFields.ofList, entriesOf, JSFields.toList, List.all_cons, List.all_nil,
      Bool.and_true]
    rw [evalOpWith, if_neg (by decide), if_neg (by decide), if_pos (by decide)]
    simp [h]
  · rw [evalFieldFilter_unfold, if_pos (by rfl)]
    simp only [jobj, JSFields.ofList, entriesOf, JSFields.toList, List.all_cons, List.all_nil,
      Bool.and_true]
    rw [evalOpWith, if_neg (by decide), if_pos (by decide)]
    simp [h]

theorem notIn_in_nonarray_asymmetry_witness :
    isArray (.vNum 2) = false ∧
    evalFieldFilter (.vNum 1) (jobj [("notIn", .vNum 2)]) = true ∧
    evalFieldFilter (.vNum 1) (jobj [("in", .vNum 2)]) = false :=
  ⟨rfl, (notIn_in_nonarray_asymmetry (.vNum 1) (.vNum 2) rfl).1,
   (notIn_in_nonarray_asymmetry (.vNum 1) (.vNum 2) rfl).2⟩
